import Mathlib

/-!
Verification of the per-frame presentation pipeline (`gpui/src/presenter.rs`).

The Rust code is shallowly embedded: the `HashMap<usize, _>` registries are
modelled as association lists with function-update semantics, `Vec` stacks are
modelled as lists pushed at the tail (so the list order matches the `Vec`
order), and machine floats that the presenter merely stores and copies (event
positions, window sizes, scale factors) are modelled as opaque integer-coded
scalars — the presenter performs no arithmetic on them.  Fallible execution is
modelled with an explicit result type: `fatal` corresponds to a Rust
`Option::unwrap` panic, and `noFuel` is an artifact of the fuel-indexed
embedding of the (possibly reentrant) traversal recursion, not a program
behaviour.
-/

set_option autoImplicit false

universe u v

/-! ### Result type and the association-list model of `HashMap<usize, V>` -/

/-- Result of running a fallible presenter operation: `ok` is normal
completion, `fatal` is a hard failure (an `unwrap` panic in the source), and
`noFuel` means the fuel of the embedding ran out before the traversal
finished. -/
inductive Res (α : Type u) where
  | ok : α → Res α
  | fatal : Res α
  | noFuel : Res α
deriving Repr, DecidableEq

/-- Sequencing of fallible presenter steps. -/
def Res.bind {α β : Type u} : Res α → (α → Res β) → Res β
  | .ok a, f => f a
  | .fatal, _ => .fatal
  | .noFuel, _ => .noFuel

/-- Extract the payload of an `ok` result, with a default for the other
cases; used to state concrete witness instances. -/
def Res.getOk {α : Type u} (r : Res α) (d : α) : α :=
  match r with
  | .ok a => a
  | _ => d

/-- `HashMap::get`: first (and, under the update discipline below, only)
binding of a key. -/
def lookupK {α : Type u} : List (Nat × α) → Nat → Option α
  | [], _ => none
  | (k, v) :: rest, k' => if k = k' then some v else lookupK rest k'

/-- `HashMap::remove`: delete every binding of the key. -/
def eraseK {α : Type u} : List (Nat × α) → Nat → List (Nat × α)
  | [], _ => []
  | (k, v) :: rest, k' => if k = k' then eraseK rest k' else (k, v) :: eraseK rest k'

/-- `HashMap::insert`: bind the key, replacing any previous binding. -/
def insertK {α : Type u} (m : List (Nat × α)) (k : Nat) (v : α) : List (Nat × α) :=
  (k, v) :: eraseK m k

/-- Key membership, i.e. `HashMap::contains_key`. -/
def containsK {α : Type u} (m : List (Nat × α)) (k : Nat) : Bool :=
  (lookupK m k).isSome

/-- The list of keys of a map. -/
def keysList {α : Type u} (m : List (Nat × α)) : List Nat :=
  m.map Prod.fst

/-! ### Data model -/

/-- Opaque 2-D scalar pair: models `Vector2F` values (positions, sizes).  The
presenter only stores and copies these, so the `f32` components are modelled
as opaque integer-coded scalars. -/
abbrev Pos : Type := Int × Int

/-- `SizeConstraint { min, max }` from the source. -/
structure SizeConstraint where
  min : Pos
  max : Pos
deriving Repr, DecidableEq

/-- `SizeConstraint::strict(size)`: forces an exact size. -/
def SizeConstraint.strict (size : Pos) : SizeConstraint :=
  { min := size, max := size }

/-- The platform `Event` variants the presenter inspects
(`Event::MouseMoved`, `Event::LeftMouseDragged`); every other variant is
opaque to this code and is modelled by an integer tag. -/
inductive Event where
  | mouseMoved (position : Pos) (leftMouseDown : Bool)
  | leftMouseDragged (position : Pos)
  | other (tag : Nat)
deriving Repr, DecidableEq

mutual
/-- Modelled from the spec: rendered view content (`ElementBox`) is an
opaque, externally supplied tree of drawable nodes.  Its concrete element
implementations live outside this file's source; the model covers exactly
what such content can do through the in-source phase-context API: a `node`
is opaque content that (when visited by event dispatch) may queue actions
via `dispatch_action`, request redraw via `notify`, consume the event, and
recurse into inline children; `childView` is the in-source `ChildView` proxy
element, which delegates every phase to the context's recursive visit of the
referenced view identity. -/
inductive Elem where
  | node (tag : Nat) (consume : Bool) (acts : List Nat) (notif : Bool) (children : ElemList) : Elem
  | childView (viewId : Nat) : Elem

/-- A list of child elements (kept as a mutual inductive so that structural
recursion and induction over element trees stay simple). -/
inductive ElemList where
  | nil : ElemList
  | cons : Elem → ElemList → ElemList
end

/-- The registry: `rendered_views: HashMap<usize, ElementBox>`. -/
abbrev Registry : Type := List (Nat × Elem)

/-- `DispatchDirective { path, action }`; the opaque boxed action payload is
modelled by an integer code. -/
structure DispatchDirective where
  path : List Nat
  action : Nat
deriving Repr, DecidableEq

/-- A draw scene (`Scene`): its scale factor plus the draw commands
accumulated by the paint pass, each tagged with the emitting node's tag and
its origin. -/
structure Scene where
  scaleFactor : Int
  commands : List (Nat × Pos)
deriving Repr, DecidableEq

/-- Calls the presenter makes into its external collaborators
(`MutableAppContext::notify_view`, `MutableAppContext::dispatch_action_any`)
plus the `log::error!` diagnostic in `build_scene`; recorded in emission
order. -/
inductive ExtCall where
  | notifyView (windowId viewId : Nat)
  | dispatchActionAny (windowId : Nat) (path : List Nat) (action : Nat)
  | logError (windowId : Nat)
deriving Repr, DecidableEq

/-- The slice of `MutableAppContext` the presenter consults: the window's
root view, the focused view, and the view-model render function
(`render_view(window_id, view_id, titlebar_height, refresh) -> Option`,
`None` modelling a render failure that the presenter `unwrap`s). -/
structure AppCtx where
  rootViewId : Option Nat
  focusedViewId : Option Nat
  renderView : Nat → Nat → Int → Bool → Option Elem

/-- `WindowInvalidation { updated, removed }`; the Rust `HashSet`s are
modelled as lists of identities. -/
structure WindowInvalidation where
  updated : List Nat
  removed : List Nat
deriving Repr, DecidableEq

/-- The `Presenter` state that the embedded operations touch: the registry,
the parent-link map, and the remembered last pointer-moved event.  The shared
caches (fonts, text layout, assets) are opaque external collaborators and
carry no state observable by the claims. -/
structure Presenter where
  windowId : Nat
  rendered_views : Registry
  parents : List (Nat × Nat)
  lastMouseMovedEvent : Option Event
  titlebarHeight : Int

/-! ### Layout phase (`LayoutContext::layout`) -/

/-- The state threaded through a layout pass: the registry and parent map
borrowed from the presenter, the `view_stack` of identities currently being
visited (in `Vec` order: the stack top is the list tail), and `visitLog`, a
proof-side instrumentation recording each visit as (identity, stack top at
the moment of the visit); the log is not part of the Rust state and no
operation ever reads it. -/
structure LState where
  rendered_views : Registry
  parents : List (Nat × Nat)
  view_stack : List Nat
  visitLog : List (Nat × Option Nat)

/-- The entry bookkeeping of `LayoutContext::layout`: if the visitation stack
is non-empty, record its top as the visited identity's parent; then push the
identity.  (The visit is also appended to the proof-side log.) -/
def lEnter (v : Nat) (s : LState) : LState :=
  { s with
    parents :=
      match s.view_stack.getLast? with
      | some p => insertK s.parents v p
      | none => s.parents,
    view_stack := s.view_stack ++ [v],
    visitLog := s.visitLog ++ [(v, s.view_stack.getLast?)] }

mutual
/-- Modelled from the spec: one element's layout.  Opaque `node` content lays
out its inline children in order; the `ChildView` proxy delegates to the
layout context's recursive visit (`cx.layout(self.view_id, constraint)`),
faithful to the in-source `impl Element for ChildView`. -/
def layoutElemWith (lv : Nat → SizeConstraint → LState → Res (Pos × LState)) :
    Elem → SizeConstraint → LState → Res (Pos × LState)
  | .childView v, c, s => lv v c s
  | .node _ _ _ _ children, c, s =>
    Res.bind (layoutListWith lv children c s) fun s' => .ok (((0 : Int), (0 : Int)), s')

/-- Lay out a list of inline children in order. -/
def layoutListWith (lv : Nat → SizeConstraint → LState → Res (Pos × LState)) :
    ElemList → SizeConstraint → LState → Res LState
  | .nil, _, s => .ok s
  | .cons e es, c, s =>
    Res.bind (layoutElemWith lv e c s) fun r => layoutListWith lv es c r.2
end

/-- One step of `LayoutContext::layout`, parameterised by the recursive
visit used for descendant views: record the parent link and push the stack,
remove the identity's registry entry (`.unwrap()` panics — `fatal` — if it is
absent), lay out the removed value, reinsert it under the same identity, and
pop the stack. -/
def layoutViewStep (lv : Nat → SizeConstraint → LState → Res (Pos × LState))
    (v : Nat) (c : SizeConstraint) (s : LState) : Res (Pos × LState) :=
  let s0 := lEnter v s
  match lookupK s0.rendered_views v with
  | none => .fatal
  | some e =>
    Res.bind
      (layoutElemWith lv e c { s0 with rendered_views := eraseK s0.rendered_views v })
      fun r =>
        .ok (r.1, { r.2 with
          rendered_views := insertK r.2.rendered_views v e,
          view_stack := r.2.view_stack.dropLast })

/-- `LayoutContext::layout`, fuel-indexed: each nested view visit consumes
one unit of fuel.  With zero fuel left the absent-identity `unwrap` panic is
still faithfully reported (`fatal`); otherwise the embedding answers
`noFuel`. -/
def layoutView : Nat → Nat → SizeConstraint → LState → Res (Pos × LState)
  | 0 => fun v _ s =>
    match lookupK (lEnter v s).rendered_views v with
    | none => .fatal
    | some _ => .noFuel
  | fuel + 1 => layoutViewStep (layoutView fuel)

/-! ### Paint phase (`PaintContext::paint`) -/

/-- The state threaded through a paint pass: the registry plus the scene's
accumulated draw commands. -/
structure PState where
  rendered_views : Registry
  scene : List (Nat × Pos)

mutual
/-- Modelled from the spec: one element's paint.  Opaque `node` content emits
its draw output (one command tagged with the node's tag at the given origin)
and paints its inline children; the `ChildView` proxy delegates to
`cx.paint(self.view_id, bounds.origin())`. -/
def paintElemWith (pv : Nat → Pos → PState → Res PState) :
    Elem → Pos → PState → Res PState
  | .childView v, o, s => pv v o s
  | .node tag _ _ _ children, o, s =>
    paintListWith pv children o { s with scene := s.scene ++ [(tag, o)] }

/-- Paint a list of inline children in order. -/
def paintListWith (pv : Nat → Pos → PState → Res PState) :
    ElemList → Pos → PState → Res PState
  | .nil, _, s => .ok s
  | .cons e es, o, s => Res.bind (paintElemWith pv e o s) fun s' => paintListWith pv es o s'
end

/-- One step of `PaintContext::paint`: if the identity's registry entry is
present, remove it, paint the removed value, and reinsert it; an absent
identity is a no-op. -/
def paintViewStep (pv : Nat → Pos → PState → Res PState)
    (v : Nat) (o : Pos) (s : PState) : Res PState :=
  match lookupK s.rendered_views v with
  | none => .ok s
  | some e =>
    Res.bind (paintElemWith pv e o { s with rendered_views := eraseK s.rendered_views v })
      fun s' => .ok { s' with rendered_views := insertK s'.rendered_views v e }

/-- `PaintContext::paint`, fuel-indexed. -/
def paintView : Nat → Nat → Pos → PState → Res PState
  | 0 => fun v _ s =>
    match lookupK s.rendered_views v with
    | none => .ok s
    | some _ => .noFuel
  | fuel + 1 => paintViewStep (paintView fuel)

/-! ### Event phase (`EventContext`) -/

/-- The state threaded through an event-dispatch pass: the registry, the
ordered queue of dispatch directives, the visitation stack (in `Vec` order),
and the set of views marked for redraw (a `HashSet`, modelled as a
duplicate-free list in insertion order). -/
structure EState where
  rendered_views : Registry
  dispatched_actions : List DispatchDirective
  view_stack : List Nat
  invalidated_views : List Nat

/-- `EventContext::dispatch_action`: capture the current visitation stack as
the directive's path and append it to the queue; nothing is applied. -/
def EState.dispatchAction (s : EState) (a : Nat) : EState :=
  { s with dispatched_actions := s.dispatched_actions ++ [{ path := s.view_stack, action := a }] }

/-- `EventContext::notify`: mark the innermost currently-visited identity
(the stack top) as needing redraw; a no-op when no visit is in progress. -/
def EState.notify (s : EState) : EState :=
  match s.view_stack.getLast? with
  | some v =>
    if v ∈ s.invalidated_views then s
    else { s with invalidated_views := s.invalidated_views ++ [v] }
  | none => s

mutual
/-- Modelled from the spec: one element's event handling.  Opaque `node`
content may queue its actions, request redraw, dispatch to its inline
children in order, and reports the event consumed if it consumes it itself
or any child did; the `ChildView` proxy delegates to
`cx.dispatch_event(self.view_id, event)`. -/
def eDispatchElemWith (dv : Nat → EState → Res (Bool × EState)) (ev : Event) :
    Elem → EState → Res (Bool × EState)
  | .childView v, s => dv v s
  | .node _ consume acts notif children, s =>
    let s1 := acts.foldl (fun t a => EState.dispatchAction t a) s
    let s2 := if notif then s1.notify else s1
    Res.bind (eDispatchListWith dv ev children s2) fun r => .ok (consume || r.1, r.2)

/-- Dispatch the event to a list of inline children in order. -/
def eDispatchListWith (dv : Nat → EState → Res (Bool × EState)) (ev : Event) :
    ElemList → EState → Res (Bool × EState)
  | .nil, s => .ok (false, s)
  | .cons e es, s =>
    Res.bind (eDispatchElemWith dv ev e s) fun r =>
      Res.bind (eDispatchListWith dv ev es r.2) fun r' => .ok (r.1 || r'.1, r'.2)
end

/-- One step of `EventContext::dispatch_event`: if the identity's registry
entry is present, remove it, push the identity, dispatch the event to the
removed value, pop the stack, reinsert the value, and return the handler's
consumed flag; an absent identity returns `false` and changes nothing. -/
def eDispatchViewStep (dv : Nat → EState → Res (Bool × EState)) (ev : Event)
    (v : Nat) (s : EState) : Res (Bool × EState) :=
  match lookupK s.rendered_views v with
  | none => .ok (false, s)
  | some e =>
    Res.bind
      (eDispatchElemWith dv ev e
        { s with rendered_views := eraseK s.rendered_views v,
                 view_stack := s.view_stack ++ [v] })
      fun r =>
        .ok (r.1, { r.2 with
          view_stack := r.2.view_stack.dropLast,
          rendered_views := insertK r.2.rendered_views v e })

/-- `EventContext::dispatch_event`, fuel-indexed. -/
def eDispatchView : Nat → Event → Nat → EState → Res (Bool × EState)
  | 0, _ => fun v s =>
    match lookupK s.rendered_views v with
    | none => .ok (false, s)
    | some _ => .noFuel
  | fuel + 1, ev => eDispatchViewStep (eDispatchView fuel ev) ev

/-! ### Presenter operations -/

/-- The `while let` walk inside `Presenter::dispatch_path`: follow parent
links from the current identity, pushing each parent onto the accumulated
path; fuel-indexed because a cyclic parent map would make the source loop
forever. -/
def walkChain (ps : List (Nat × Nat)) : Nat → Nat → List Nat → Option (List Nat)
  | 0, _, _ => none
  | fuel + 1, v, acc =>
    match lookupK ps v with
    | none => some acc
    | some q => walkChain ps fuel q (acc ++ [q])

/-- `Presenter::dispatch_path`: start at the focused view (`unwrap` — fatal —
if none is focused), walk the parent-link map to a parentless identity, then
reverse so index 0 is the chain's root. -/
def Presenter.dispatchPath (fuel : Nat) (p : Presenter) (cx : AppCtx) : Res (List Nat) :=
  match cx.focusedViewId with
  | none => .fatal
  | some v0 =>
    match walkChain p.parents fuel v0 [v0] with
    | none => .noFuel
    | some path => .ok path.reverse

/-- The `removed` loop of `Presenter::invalidate`: for each removed identity,
evict it from the diff's `updated` set and delete its registry and
parent-link entries. -/
def invRemove : List Nat → List Nat → Registry → List (Nat × Nat) →
    List Nat × Registry × List (Nat × Nat)
  | [], upd, rv, ps => (upd, rv, ps)
  | v :: rest, upd, rv, ps =>
    invRemove rest (upd.filter (fun u => u ≠ v)) (eraseK rv v) (eraseK ps v)

/-- The `updated` loop of `Presenter::invalidate`: re-render each identity
(refresh flag `false`, `unwrap` — fatal — on render failure) and overwrite
its registry entry; also returns the log of (identity, refresh-flag) render
requests issued. -/
def renderLoop (cx : AppCtx) (wid : Nat) (tb : Int) :
    List Nat → Registry → Res (Registry × List (Nat × Bool))
  | [], rv => .ok (rv, [])
  | v :: rest, rv =>
    match cx.renderView wid v tb false with
    | none => .fatal
    | some e =>
      Res.bind (renderLoop cx wid tb rest (insertK rv v e)) fun r =>
        .ok (r.1, (v, false) :: r.2)

/-- `Presenter::invalidate`: process the diff's removals, then re-render the
surviving updated identities.  Also returns the render-request log. -/
def Presenter.invalidate (p : Presenter) (inv : WindowInvalidation) (cx : AppCtx) :
    Res (Presenter × List (Nat × Bool)) :=
  match invRemove inv.removed inv.updated p.rendered_views p.parents with
  | (upd, rv, ps) =>
    Res.bind (renderLoop cx p.windowId p.titlebarHeight upd rv) fun r =>
      .ok ({ p with rendered_views := r.1, parents := ps }, r.2)

/-- The removal loop of `Presenter::refresh`: delete each removed identity's
registry and parent-link entries (the diff's `updated` set is not consulted). -/
def refreshRemove : List Nat → Registry → List (Nat × Nat) → Registry × List (Nat × Nat)
  | [], rv, ps => (rv, ps)
  | v :: rest, rv, ps => refreshRemove rest (eraseK rv v) (eraseK ps v)

/-- The re-render loop of `Presenter::refresh`: overwrite every registry
entry in place with a forced re-render (refresh flag `true`, `unwrap` —
fatal — on render failure); also returns the render-request log. -/
def refreshLoop (cx : AppCtx) (wid : Nat) (tb : Int) :
    Registry → Res (Registry × List (Nat × Bool))
  | [] => .ok ([], [])
  | (v, _) :: rest =>
    match cx.renderView wid v tb true with
    | none => .fatal
    | some e' =>
      Res.bind (refreshLoop cx wid tb rest) fun r =>
        .ok ((v, e') :: r.1, (v, true) :: r.2)

/-- `Presenter::refresh`: apply the optional diff's removals, then
unconditionally re-render every entry still in the registry. -/
def Presenter.refresh (p : Presenter) (inv : Option WindowInvalidation) (cx : AppCtx) :
    Res (Presenter × List (Nat × Bool)) :=
  match
    (match inv with
     | some i => refreshRemove i.removed p.rendered_views p.parents
     | none => (p.rendered_views, p.parents)) with
  | (rv, ps) =>
    Res.bind (refreshLoop cx p.windowId p.titlebarHeight rv) fun r =>
      .ok ({ p with rendered_views := r.1, parents := ps }, r.2)

/-- `Presenter::dispatch_event`: with no resolvable root the event is
silently dropped.  Otherwise remember pointer state (a pointer-moved event
verbatim; a pointer-dragged event as a synthesized pointer-moved event at
the same position with the pressed flag set), run one recursive dispatch
pass from the root, and only then emit the collected side effects: one
`notify_view` per redraw-marked view followed by one `dispatch_action_any`
per queued directive in queue order along its recorded path. -/
def Presenter.dispatchEvent (fuel : Nat) (p : Presenter) (event : Event) (cx : AppCtx) :
    Res (Presenter × List ExtCall) :=
  match cx.rootViewId with
  | none => .ok (p, [])
  | some rootId =>
    let lastEv : Option Event :=
      match event with
      | .mouseMoved _ _ => some event
      | .leftMouseDragged position => some (.mouseMoved position true)
      | .other _ => p.lastMouseMovedEvent
    Res.bind
      (eDispatchView fuel event rootId
        { rendered_views := p.rendered_views, dispatched_actions := [],
          view_stack := [], invalidated_views := [] })
      fun r =>
        .ok ({ p with rendered_views := r.2.rendered_views, lastMouseMovedEvent := lastEv },
          r.2.invalidated_views.map (fun v => ExtCall.notifyView p.windowId v)
            ++ r.2.dispatched_actions.map
                (fun d => ExtCall.dispatchActionAny p.windowId d.path d.action))

/-- `Presenter::layout`: if a root view identity is resolvable, run the
layout pass from it with a strict constraint equal to the window size, on a
fresh (empty) visitation stack. -/
def Presenter.layoutPass (fuel : Nat) (p : Presenter) (size : Pos) (cx : AppCtx) :
    Res (Presenter × List (Nat × Option Nat)) :=
  match cx.rootViewId with
  | none => .ok (p, [])
  | some rootId =>
    Res.bind
      (layoutView fuel rootId (SizeConstraint.strict size)
        { rendered_views := p.rendered_views, parents := p.parents,
          view_stack := [], visitLog := [] })
      fun r =>
        .ok ({ p with rendered_views := r.2.rendered_views, parents := r.2.parents },
          r.2.visitLog)

/-- `Presenter::build_scene`: with no resolvable root, report (`log::error!`)
and return a new empty scene at the given scale factor.  Otherwise run the
layout pass, the paint pass from the root at the zero origin, and — if a
pointer-moved event was remembered — replay it through `dispatch_event`.
(The `text_layout_cache.finish_frame()` call touches only an opaque external
cache and has no observable effect here.) -/
def Presenter.buildScene (fuel : Nat) (p : Presenter) (windowSize : Pos)
    (scaleFactor : Int) (cx : AppCtx) : Res (Scene × Presenter × List ExtCall) :=
  match cx.rootViewId with
  | none =>
    .ok ({ scaleFactor := scaleFactor, commands := [] }, p, [.logError p.windowId])
  | some rootId =>
    Res.bind (Presenter.layoutPass fuel p windowSize cx) fun lr =>
      Res.bind (paintView fuel rootId ((0 : Int), (0 : Int))
          { rendered_views := lr.1.rendered_views, scene := [] }) fun ps =>
        let p2 : Presenter := { lr.1 with rendered_views := ps.rendered_views }
        let scene : Scene := { scaleFactor := scaleFactor, commands := ps.scene }
        match p2.lastMouseMovedEvent with
        | some ev =>
          Res.bind (Presenter.dispatchEvent fuel p2 ev cx) fun dr =>
            .ok (scene, dr.1, dr.2)
        | none => .ok (scene, p2, [])

/-! ### Ancestor chains, visit logs, and preservation predicates -/

/-- The `n`-th ancestor of `v` in the parent-link map (`none` when the chain
ends earlier). -/
def ancN (ps : List (Nat × Nat)) : Nat → Nat → Option Nat
  | 0, v => some v
  | n + 1, v =>
    match lookupK ps v with
    | none => none
    | some q => ancN ps n q

/-- The tree depth of `v`: the number of parent links followed before
reaching a parentless identity, fuel-indexed. -/
def ancDepth (ps : List (Nat × Nat)) : Nat → Nat → Option Nat
  | 0, _ => none
  | fuel + 1, v =>
    match lookupK ps v with
    | none => some 0
    | some q => (ancDepth ps fuel q).map (· + 1)

/-- Acyclicity of the parent-link map, in the bounded, decidable form the
termination argument needs: no key returns to itself within
`ps.length + 1` parent steps.  A map with a genuine cycle violates this (any
cycle member returns to itself in at most `ps.length` steps), and a genuinely
acyclic map satisfies it. -/
def AcyclicPL (ps : List (Nat × Nat)) : Prop :=
  ∀ v ∈ keysList ps, ∀ n, n < ps.length + 1 → ancN ps (n + 1) v ≠ some v

/-- Replay a visit log against a parent map: each visit that saw a non-empty
visitation stack inserts (identity ↦ stack top); visits with an empty stack
insert nothing.  This is exactly the sequence of `parents.insert` calls a
layout pass performs. -/
def applyLog : List (Nat × Nat) → List (Nat × Option Nat) → List (Nat × Nat)
  | ps, [] => ps
  | ps, (v, some q) :: rest => applyLog (insertK ps v q) rest
  | ps, (_, none) :: rest => applyLog ps rest

/-- The parent recorded at the chronologically last visit of `k` that had a
containing identity (`none` if `k` was never visited under a non-empty
stack). -/
def lastParented : List (Nat × Option Nat) → Nat → Option Nat
  | [], _ => none
  | (v, q) :: rest, k =>
    match lastParented rest k with
    | some r => some r
    | none => if v = k then q else none

/-- What a completed (sub)visit of the layout phase preserves and how it may
change the state: the registry's key set and the visitation stack are left
equal to their pre-visit values, the visit log only grows, and the parent
map is changed exactly by replaying the appended log entries. -/
def LPres (s s' : LState) : Prop :=
  (∀ k, containsK s'.rendered_views k = containsK s.rendered_views k) ∧
  s'.view_stack = s.view_stack ∧
  ∃ d, s'.visitLog = s.visitLog ++ d ∧ s'.parents = applyLog s.parents d

/-- What a completed (sub)visit of the paint phase preserves: the registry's
key set equals its pre-visit value. -/
def PPres (s s' : PState) : Prop :=
  ∀ k, containsK s'.rendered_views k = containsK s.rendered_views k

/-- What a completed (sub)visit of the event phase preserves: the registry's
key set and the visitation stack equal their pre-visit values. -/
def EPres (s s' : EState) : Prop :=
  (∀ k, containsK s'.rendered_views k = containsK s.rendered_views k) ∧
  s'.view_stack = s.view_stack

/-! ### Concrete example states -/

/-- Example content of view 3 ("B"): consumes events, queues action `7`,
requests redraw. -/
def exElemB : Elem := .node 30 true [7] true .nil

/-- Example content of view 2 ("A"): embeds view 3 through the proxy. -/
def exElemA : Elem := .node 20 false [] false (.cons (.childView 3) .nil)

/-- Example content of view 1 (the root): embeds view 2 through the proxy. -/
def exElemRoot : Elem := .node 10 false [] false (.cons (.childView 2) .nil)

/-- Example registry holding the three-view tree. -/
def exRegistry : Registry := [(1, exElemRoot), (2, exElemA), (3, exElemB)]

/-- Example layout-phase state over the three-view registry. -/
def exLState : LState :=
  { rendered_views := exRegistry, parents := [], view_stack := [], visitLog := [] }

/-- Example paint-phase state over the three-view registry. -/
def exPState : PState := { rendered_views := exRegistry, scene := [] }

/-- Example event-phase state over the three-view registry. -/
def exEState : EState :=
  { rendered_views := exRegistry, dispatched_actions := [], view_stack := [],
    invalidated_views := [] }

/-- Example app context: view 1 is the window root, view 3 is focused, and
every render request succeeds with a fresh leaf node. -/
def exCx : AppCtx :=
  { rootViewId := some 1, focusedViewId := some 3,
    renderView := fun _ v _ _ => some (.node v false [] false .nil) }

/-- Example presenter over the three-view registry. -/
def exPresenter : Presenter :=
  { windowId := 0, rendered_views := exRegistry, parents := [],
    lastMouseMovedEvent := none, titlebarHeight := 0 }

/-- The removed set of an optional invalidation diff. -/
def removedOf (inv : Option WindowInvalidation) : List Nat :=
  match inv with
  | some i => i.removed
  | none => []

/-- A presenter whose registry is empty even though the app context still
resolves a root view identity. -/
def c8Presenter : Presenter :=
  { windowId := 3, rendered_views := [], parents := [], lastMouseMovedEvent := none,
    titlebarHeight := 0 }

/-- An app context that resolves no root and no focus. -/
def cxNoRoot : AppCtx :=
  { rootViewId := none, focusedViewId := none, renderView := fun _ _ _ _ => none }

/-- Bounded acyclicity is decidable, so witnesses can be checked by
evaluation. -/
instance instDecAcyclicPL (ps : List (Nat × Nat)) : Decidable (AcyclicPL ps) := by
  unfold AcyclicPL
  infer_instance

/-- The three-view presenter with the parent-link map a layout pass of the
example tree produces (2 ↦ 1, 3 ↦ 2). -/
def exPresenterChain : Presenter := { exPresenter with parents := [(2, 1), (3, 2)] }

/-! ## Theorems -/

/-! ### Lemmas about the result type, maps, and logs -/

@[simp] theorem Res.bind_ok {α β : Type u} (a : α) (f : α → Res β) :
    Res.bind (.ok a) f = f a := rfl

@[simp] theorem Res.bind_fatal {α β : Type u} (f : α → Res β) :
    Res.bind (.fatal : Res α) f = .fatal := rfl

@[simp] theorem Res.bind_noFuel {α β : Type u} (f : α → Res β) :
    Res.bind (.noFuel : Res α) f = .noFuel := rfl

theorem Res.bind_eq_ok {α β : Type u} {x : Res α} {f : α → Res β} {b : β} :
    Res.bind x f = .ok b ↔ ∃ a, x = .ok a ∧ f a = .ok b := by
  cases x <;> simp [Res.bind]

@[simp] theorem lookupK_nil {α : Type u} (k : Nat) : lookupK ([] : List (Nat × α)) k = none := rfl

set_option linter.unnecessarySeqFocus false in
theorem lookupK_eraseK {α : Type u} (m : List (Nat × α)) (k k' : Nat) :
    lookupK (eraseK m k) k' = if k = k' then none else lookupK m k' := by
  induction m with
  | nil => simp [eraseK]
  | cons p rest ih =>
    obtain ⟨a, b⟩ := p
    by_cases hak : a = k <;> by_cases hak' : a = k' <;>
      simp_all [eraseK, lookupK] <;> omega

theorem lookupK_insertK {α : Type u} (m : List (Nat × α)) (k k' : Nat) (v : α) :
    lookupK (insertK m k v) k' = if k = k' then some v else lookupK m k' := by
  by_cases h : k = k' <;> simp [insertK, lookupK, lookupK_eraseK, h]

theorem containsK_insertK {α : Type u} (m : List (Nat × α)) (k k' : Nat) (v : α) :
    containsK (insertK m k v) k' = (if k = k' then true else containsK m k') := by
  by_cases h : k = k' <;> simp [containsK, lookupK_insertK, h]

theorem containsK_eraseK {α : Type u} (m : List (Nat × α)) (k k' : Nat) :
    containsK (eraseK m k) k' = (if k = k' then false else containsK m k') := by
  by_cases h : k = k' <;> simp [containsK, lookupK_eraseK, h]

theorem lookupK_mem_keysList {α : Type u} {m : List (Nat × α)} {k : Nat} {v : α}
    (h : lookupK m k = some v) : k ∈ keysList m := by
  induction m with
  | nil => simp [lookupK] at h
  | cons p rest ih =>
    obtain ⟨a, b⟩ := p
    by_cases hak : a = k
    · simp [keysList, hak]
    · simp only [lookupK, hak, if_false] at h
      simpa [keysList] using Or.inr (ih h)

theorem applyLog_append (d1 d2 : List (Nat × Option Nat)) :
    ∀ ps, applyLog ps (d1 ++ d2) = applyLog (applyLog ps d1) d2 := by
  induction d1 with
  | nil => intro ps; rfl
  | cons p rest ih =>
    intro ps
    obtain ⟨v, q⟩ := p
    cases q <;> simp [applyLog, ih]

theorem lookupK_applyLog (d : List (Nat × Option Nat)) :
    ∀ ps k, lookupK (applyLog ps d) k =
      (match lastParented d k with
       | some q => some q
       | none => lookupK ps k) := by
  induction d with
  | nil => intro ps k; simp [applyLog, lastParented]
  | cons p rest ih =>
    intro ps k
    obtain ⟨v, q⟩ := p
    cases q with
    | none =>
      simp only [applyLog, lastParented, ih]
      rcases lastParented rest k with _ | r
      · by_cases hvk : v = k <;> simp [hvk]
      · simp
    | some qv =>
      simp only [applyLog, lastParented, ih]
      rcases lastParented rest k with _ | r
      · by_cases hvk : v = k <;> simp [hvk, lookupK_insertK]
      · simp

/-! ### Preservation across a phase visit -/

theorem lpresSelf (s : LState) : LPres s s :=
  ⟨fun _ => Eq.refl _, Eq.refl _, [], by simp, Eq.refl _⟩

theorem lpresTrans {s s' s'' : LState} (h1 : LPres s s') (h2 : LPres s' s'') :
    LPres s s'' := by
  obtain ⟨k1, st1, d1, l1, p1⟩ := h1
  obtain ⟨k2, st2, d2, l2, p2⟩ := h2
  refine ⟨fun k => (k2 k).trans (k1 k), st2.trans st1, d1 ++ d2, ?_, ?_⟩
  · rw [l2, l1, List.append_assoc]
  · rw [p2, p1, applyLog_append]

@[simp] theorem lEnter_rendered (v : Nat) (s : LState) :
    (lEnter v s).rendered_views = s.rendered_views := rfl

@[simp] theorem lEnter_stack (v : Nat) (s : LState) :
    (lEnter v s).view_stack = s.view_stack ++ [v] := rfl

@[simp] theorem lEnter_log (v : Nat) (s : LState) :
    (lEnter v s).visitLog = s.visitLog ++ [(v, s.view_stack.getLast?)] := rfl

theorem lEnter_parents (v : Nat) (s : LState) :
    (lEnter v s).parents = applyLog s.parents [(v, s.view_stack.getLast?)] := by
  rcases h : s.view_stack.getLast? with _ | p <;> simp [lEnter, applyLog, h]

/-- Mutual structural induction over element trees and child lists. -/
theorem elemInd (P1 : Elem → Prop) (P2 : ElemList → Prop)
    (hnode : ∀ t c a n ch, P2 ch → P1 (.node t c a n ch))
    (hchild : ∀ v, P1 (.childView v))
    (hnil : P2 .nil)
    (hcons : ∀ e es, P1 e → P2 es → P2 (.cons e es)) :
    (∀ e, P1 e) ∧ (∀ es, P2 es) :=
  ⟨fun e => @Elem.rec P1 P2 hnode hchild hnil hcons e,
   fun es => @ElemList.rec P1 P2 hnode hchild hnil hcons es⟩

theorem layoutElemWith_pres
    (lv : Nat → SizeConstraint → LState → Res (Pos × LState))
    (H : ∀ v c s r, lv v c s = .ok r → LPres s r.2) :
    (∀ e, ∀ c s r, layoutElemWith lv e c s = .ok r → LPres s r.2) ∧
    (∀ es, ∀ c s r', layoutListWith lv es c s = .ok r' → LPres s r') := by
  refine elemInd
    (fun e => ∀ c s r, layoutElemWith lv e c s = .ok r → LPres s r.2)
    (fun es => ∀ c s r', layoutListWith lv es c s = .ok r' → LPres s r')
    ?_ ?_ ?_ ?_
  · intro t c a n ch ih cst s r h
    simp only [layoutElemWith, Res.bind_eq_ok] at h
    obtain ⟨s', hs', hr⟩ := h
    cases hr
    exact ih cst s s' hs'
  · intro v c s r h
    exact H v c s r h
  · intro c s r' h
    cases h
    exact lpresSelf s
  · intro e es ih1 ih2 c s r' h
    simp only [layoutListWith, Res.bind_eq_ok] at h
    obtain ⟨r1, h1, h2⟩ := h
    exact lpresTrans (ih1 c s r1 h1) (ih2 c r1.2 r' h2)

/-- A completed `LayoutContext::layout` visit satisfies the preservation
invariant: registry key set and visitation stack are restored, and the
parent map is changed exactly by replaying the visits it logged. -/
theorem layoutView_pres :
    ∀ fuel v c s r, layoutView fuel v c s = .ok r → LPres s r.2 := by
  intro fuel
  induction fuel with
  | zero =>
    intro v c s r h
    simp only [layoutView] at h
    rcases hl : lookupK (lEnter v s).rendered_views v with _ | e <;>
      rw [hl] at h <;> exact Res.noConfusion h
  | succ fuel ih =>
    intro v c s r h
    have hstep : layoutView (fuel + 1) = layoutViewStep (layoutView fuel) := rfl
    rw [hstep] at h
    simp only [layoutViewStep] at h
    rcases hl : lookupK (lEnter v s).rendered_views v with _ | e <;> rw [hl] at h
    · exact Res.noConfusion h
    · rw [Res.bind_eq_ok] at h
      obtain ⟨r1, h1, h2⟩ := h
      have helem := (layoutElemWith_pres (layoutView fuel) ih).1 _ _ _ _ h1
      obtain ⟨hk, hst, d1, hlog, hpar⟩ := helem
      cases h2
      have hvmem : containsK s.rendered_views v = true := by
        simp only [lEnter_rendered] at hl
        simp [containsK, hl]
      refine ⟨?_, ?_, (v, s.view_stack.getLast?) :: d1, ?_, ?_⟩
      · intro k
        by_cases hkv : v = k
        · subst hkv
          simp [containsK_insertK, hvmem]
        · have := hk k
          simp only [lEnter_rendered] at this
          simp [containsK_insertK, containsK_eraseK, hkv] at this ⊢
          exact this
      · simp only [hst, lEnter_stack]
        exact List.dropLast_concat
      · simp only [hlog, lEnter_log, List.append_assoc, List.singleton_append]
      · rw [hpar, lEnter_parents]
        rcases hg : s.view_stack.getLast? with _ | p <;> simp [applyLog]

theorem ppresSelf (s : PState) : PPres s s := fun _ => Eq.refl _

theorem ppresTrans {s s' s'' : PState} (h1 : PPres s s') (h2 : PPres s' s'') :
    PPres s s'' := fun k => (h2 k).trans (h1 k)

theorem paintElemWith_pres
    (pv : Nat → Pos → PState → Res PState)
    (H : ∀ v o s s', pv v o s = .ok s' → PPres s s') :
    (∀ e, ∀ o s s', paintElemWith pv e o s = .ok s' → PPres s s') ∧
    (∀ es, ∀ o s s', paintListWith pv es o s = .ok s' → PPres s s') := by
  refine elemInd
    (fun e => ∀ o s s', paintElemWith pv e o s = .ok s' → PPres s s')
    (fun es => ∀ o s s', paintListWith pv es o s = .ok s' → PPres s s')
    ?_ ?_ ?_ ?_
  · intro t c a n ch ih o s s' h
    simp only [paintElemWith] at h
    exact fun k =>
      ih o { rendered_views := s.rendered_views, scene := s.scene ++ [(t, o)] } s' h k
  · intro v o s s' h
    exact H v o s s' h
  · intro o s s' h
    cases h
    exact ppresSelf s
  · intro e es ih1 ih2 o s s' h
    simp only [paintListWith, Res.bind_eq_ok] at h
    obtain ⟨s1, h1, h2⟩ := h
    exact ppresTrans (ih1 o s s1 h1) (ih2 o s1 s' h2)

/-- A completed `PaintContext::paint` visit leaves the registry's key set
equal to its pre-visit value. -/
theorem paintView_pres :
    ∀ fuel v o s s', paintView fuel v o s = .ok s' → PPres s s' := by
  intro fuel
  induction fuel with
  | zero =>
    intro v o s s' h
    simp only [paintView] at h
    rcases hl : lookupK s.rendered_views v with _ | e <;> rw [hl] at h
    · cases h
      exact ppresSelf s
    · exact Res.noConfusion h
  | succ fuel ih =>
    intro v o s s' h
    have hstep : paintView (fuel + 1) = paintViewStep (paintView fuel) := rfl
    rw [hstep] at h
    simp only [paintViewStep] at h
    rcases hl : lookupK s.rendered_views v with _ | e <;> rw [hl] at h
    · cases h
      exact ppresSelf s
    · rw [Res.bind_eq_ok] at h
      obtain ⟨s1, h1, h2⟩ := h
      have helem := (paintElemWith_pres (paintView fuel) ih).1 _ _ _ _ h1
      cases h2
      intro k
      by_cases hkv : v = k
      · subst hkv
        simp [containsK, lookupK_insertK, hl]
      · have := helem k
        simp only at this
        simp [containsK_insertK, containsK_eraseK, hkv] at this ⊢
        exact this

theorem epresSelf (s : EState) : EPres s s := ⟨fun _ => Eq.refl _, Eq.refl _⟩

theorem epresTrans {s s' s'' : EState} (h1 : EPres s s') (h2 : EPres s' s'') :
    EPres s s'' := ⟨fun k => (h2.1 k).trans (h1.1 k), h2.2.trans h1.2⟩

@[simp] theorem dispatchAction_rendered (s : EState) (a : Nat) :
    (EState.dispatchAction s a).rendered_views = s.rendered_views := rfl

@[simp] theorem dispatchAction_stack (s : EState) (a : Nat) :
    (EState.dispatchAction s a).view_stack = s.view_stack := rfl

theorem actsFold_pres (acts : List Nat) :
    ∀ s : EState, EPres s (acts.foldl (fun t a => EState.dispatchAction t a) s) := by
  induction acts with
  | nil => intro s; exact epresSelf s
  | cons a rest ih =>
    intro s
    exact epresTrans ⟨fun _ => Eq.refl _, Eq.refl _⟩ (ih (EState.dispatchAction s a))

theorem notify_pres (s : EState) : EPres s s.notify := by
  unfold EState.notify
  rcases s.view_stack.getLast? with _ | v
  · exact epresSelf s
  · by_cases hm : v ∈ s.invalidated_views <;> simp [hm] <;> exact epresSelf _

theorem eElemBase_pres (a : List Nat) (n : Bool) (s : EState) :
    EPres s (if n then (a.foldl (fun t x => EState.dispatchAction t x) s).notify
             else a.foldl (fun t x => EState.dispatchAction t x) s) := by
  cases n
  · simpa using actsFold_pres a s
  · simpa using epresTrans (actsFold_pres a s) (notify_pres _)

theorem eDispatchElemWith_pres
    (dv : Nat → EState → Res (Bool × EState)) (ev : Event)
    (H : ∀ v s r, dv v s = .ok r → EPres s r.2) :
    (∀ e, ∀ s r, eDispatchElemWith dv ev e s = .ok r → EPres s r.2) ∧
    (∀ es, ∀ s r, eDispatchListWith dv ev es s = .ok r → EPres s r.2) := by
  refine elemInd
    (fun e => ∀ s r, eDispatchElemWith dv ev e s = .ok r → EPres s r.2)
    (fun es => ∀ s r, eDispatchListWith dv ev es s = .ok r → EPres s r.2)
    ?_ ?_ ?_ ?_
  · intro t c a n ch ih s r h
    simp only [eDispatchElemWith, Res.bind_eq_ok] at h
    obtain ⟨r1, h1, h2⟩ := h
    cases h2
    exact epresTrans (eElemBase_pres a n s) (ih _ r1 h1)
  · intro v s r h
    exact H v s r h
  · intro s r h
    cases h
    exact epresSelf s
  · intro e es ih1 ih2 s r h
    simp only [eDispatchListWith, Res.bind_eq_ok] at h
    obtain ⟨r1, h1, r2, h2, h3⟩ := h
    cases h3
    exact epresTrans (ih1 s r1 h1) (ih2 r1.2 r2 h2)

/-- A completed `EventContext::dispatch_event` visit leaves the registry's
key set and the visitation stack equal to their pre-visit values. -/
theorem eDispatchView_pres :
    ∀ fuel ev v s r, eDispatchView fuel ev v s = .ok r → EPres s r.2 := by
  intro fuel
  induction fuel with
  | zero =>
    intro ev v s r h
    simp only [eDispatchView] at h
    rcases hl : lookupK s.rendered_views v with _ | e <;> rw [hl] at h
    · cases h
      exact epresSelf s
    · exact Res.noConfusion h
  | succ fuel ih =>
    intro ev v s r h
    have hstep : eDispatchView (fuel + 1) ev = eDispatchViewStep (eDispatchView fuel ev) ev :=
      rfl
    rw [hstep] at h
    simp only [eDispatchViewStep] at h
    rcases hl : lookupK s.rendered_views v with _ | e <;> rw [hl] at h
    · cases h
      exact epresSelf s
    · rw [Res.bind_eq_ok] at h
      obtain ⟨r1, h1, h2⟩ := h
      have helem :=
        (eDispatchElemWith_pres (eDispatchView fuel ev) ev
          (fun w t q hq => ih ev w t q hq)).1 _ _ _ h1
      obtain ⟨hk, hst⟩ := helem
      cases h2
      constructor
      · intro k
        by_cases hkv : v = k
        · subst hkv
          simp [containsK, lookupK_insertK, hl]
        · have := hk k
          simp [containsK_insertK, containsK_eraseK, hkv] at this ⊢
          exact this
      · simp only [hst]
        exact List.dropLast_concat

/-- Claim C1: for every view identity present in the registry when a phase
visit (`LayoutContext::layout`, `PaintContext::paint`, or
`EventContext::dispatch_event`) begins, the visit removes that identity's
entry, invokes the phase operation on the removed value, reinserts the value
under the same identity, and pops the visited identity from the visitation
stack (the paint context maintains no visitation stack), so a completed
visit leaves the registry's key set — and, for layout and event dispatch,
the visitation stack — equal to their pre-visit values. -/
theorem claim1_phase_visit_checkout :
    (∀ fuel v c s r, layoutView fuel v c s = .ok r →
      (∀ k, containsK r.2.rendered_views k = containsK s.rendered_views k) ∧
      r.2.view_stack = s.view_stack) ∧
    (∀ fuel v o s r, paintView fuel v o s = .ok r →
      ∀ k, containsK r.rendered_views k = containsK s.rendered_views k) ∧
    (∀ fuel ev v s r, eDispatchView fuel ev v s = .ok r →
      (∀ k, containsK r.2.rendered_views k = containsK s.rendered_views k) ∧
      r.2.view_stack = s.view_stack) := by
  refine ⟨?_, ?_, ?_⟩
  · intro fuel v c s r h
    obtain ⟨hk, hst, _⟩ := layoutView_pres fuel v c s r h
    exact ⟨hk, hst⟩
  · intro fuel v o s r h
    exact paintView_pres fuel v o s r h
  · intro fuel ev v s r h
    exact eDispatchView_pres fuel ev v s r h

/-- Concrete instance of claim C1 on the three-view example, with each
hypothesis discharged by evaluation. -/
theorem claim1_phase_visit_checkout_witness :
    ((∀ k, containsK
        (Res.getOk (layoutView 10 1 (SizeConstraint.strict (8, 6)) exLState)
          (((0 : Int), (0 : Int)), exLState)).2.rendered_views k =
        containsK exLState.rendered_views k) ∧
      (Res.getOk (layoutView 10 1 (SizeConstraint.strict (8, 6)) exLState)
          (((0 : Int), (0 : Int)), exLState)).2.view_stack = exLState.view_stack) ∧
    ((∀ k, containsK
        (Res.getOk (paintView 10 1 ((0 : Int), (0 : Int)) exPState) exPState).rendered_views k =
        containsK exPState.rendered_views k) ∧
      ((∀ k, containsK
          (Res.getOk (eDispatchView 10 (.other 0) 1 exEState) (false, exEState)).2.rendered_views k =
          containsK exEState.rendered_views k) ∧
        (Res.getOk (eDispatchView 10 (.other 0) 1 exEState) (false, exEState)).2.view_stack =
          exEState.view_stack)) :=
  ⟨claim1_phase_visit_checkout.1 10 1 (SizeConstraint.strict (8, 6)) exLState _ rfl,
   claim1_phase_visit_checkout.2.1 10 1 ((0 : Int), (0 : Int)) exPState _ rfl,
   claim1_phase_visit_checkout.2.2 10 (.other 0) 1 exEState _ rfl⟩

/-! ### Absent identities (claims C9 and C5) -/

/-- `PaintContext::paint` on an identity absent from the registry is a
no-op, regardless of fuel. -/
theorem paintView_absent (fuel : Nat) (v : Nat) (o : Pos) (s : PState)
    (h : lookupK s.rendered_views v = none) : paintView fuel v o s = .ok s := by
  cases fuel with
  | zero => simp only [paintView]; rw [h]
  | succ f => simp only [paintView, paintViewStep]; rw [h]

/-- `EventContext::dispatch_event` on an identity absent from the registry
returns `false` and leaves the state unchanged, regardless of fuel. -/
theorem eDispatchView_absent (fuel : Nat) (ev : Event) (v : Nat) (s : EState)
    (h : lookupK s.rendered_views v = none) : eDispatchView fuel ev v s = .ok (false, s) := by
  cases fuel with
  | zero => simp only [eDispatchView]; rw [h]
  | succ f => simp only [eDispatchView, eDispatchViewStep]; rw [h]

/-- `LayoutContext::layout` on an identity absent from the registry is a
hard failure (the source `unwrap`s the removed entry), regardless of fuel. -/
theorem layoutView_absent (fuel : Nat) (v : Nat) (c : SizeConstraint) (s : LState)
    (h : lookupK s.rendered_views v = none) : layoutView fuel v c s = .fatal := by
  have h' : lookupK (lEnter v s).rendered_views v = none := by rw [lEnter_rendered]; exact h
  cases fuel with
  | zero => simp only [layoutView]; rw [h']
  | succ f => simp only [layoutView, layoutViewStep]; rw [h']

/-- Claim C9: for every view identity absent from the registry,
`PaintContext::paint` at any origin is a no-op (scene and registry
unchanged: the whole paint state is returned as it was), and
`EventContext::dispatch_event` on that identity returns `false` as the
consumed flag while leaving the registry, the visitation stack, the redraw
set, and the directive queue unchanged (the whole event state is returned
as it was). -/
theorem claim9_absent_noop (fuel : Nat) (v : Nat) :
    (∀ o (s : PState), lookupK s.rendered_views v = none →
      paintView fuel v o s = .ok s) ∧
    (∀ ev (s : EState), lookupK s.rendered_views v = none →
      eDispatchView fuel ev v s = .ok (false, s)) :=
  ⟨fun o s h => paintView_absent fuel v o s h,
   fun ev s h => eDispatchView_absent fuel ev v s h⟩

/-- Concrete instance of claim C9: identity 99 is absent from the example
registry; painting it and dispatching to it are no-ops. -/
theorem claim9_absent_noop_witness :
    paintView 10 99 ((0 : Int), (0 : Int)) exPState = .ok exPState ∧
    eDispatchView 10 (.other 0) 99 exEState = .ok (false, exEState) :=
  ⟨(claim9_absent_noop 10 99).1 ((0 : Int), (0 : Int)) exPState rfl,
   (claim9_absent_noop 10 99).2 (.other 0) exEState rfl⟩

/-- Counterexample to claim C5 as stated: visiting an identity absent from
the registry does not complete without hard failure for every phase —
`LayoutContext::layout` on absent identity 3 (empty registry) `unwrap`s a
`None` and fails fatally. -/
theorem claim5_counterexample :
    layoutView 5 3 (SizeConstraint.strict (1, 1))
      { rendered_views := [], parents := [], view_stack := [], visitLog := [] } = .fatal := rfl

/-- Claim C5, amended: for a view identity absent from the registry, the
paint and event-dispatch phase operations complete without hard failure
(a local no-op and an empty `false` result respectively), but the layout
phase operation hard-fails (it `unwrap`s the removed entry). -/
theorem claim5_absent_amended (fuel : Nat) (v : Nat) :
    (∀ o (s : PState), lookupK s.rendered_views v = none →
      paintView fuel v o s = .ok s) ∧
    (∀ ev (s : EState), lookupK s.rendered_views v = none →
      eDispatchView fuel ev v s = .ok (false, s)) ∧
    (∀ c (s : LState), lookupK s.rendered_views v = none →
      layoutView fuel v c s = .fatal) :=
  ⟨fun o s h => paintView_absent fuel v o s h,
   fun ev s h => eDispatchView_absent fuel ev v s h,
   fun c s h => layoutView_absent fuel v c s h⟩

/-- Concrete instance of the amended claim C5 at absent identity 99 of the
example states. -/
theorem claim5_absent_amended_witness :
    paintView 10 99 ((1 : Int), (2 : Int)) exPState = .ok exPState ∧
    eDispatchView 10 (.mouseMoved (1, 2) false) 99 exEState = .ok (false, exEState) ∧
    layoutView 10 99 (SizeConstraint.strict (1, 2)) exLState = .fatal :=
  ⟨(claim5_absent_amended 10 99).1 ((1 : Int), (2 : Int)) exPState rfl,
   (claim5_absent_amended 10 99).2.1 (.mouseMoved (1, 2) false) exEState rfl,
   (claim5_absent_amended 10 99).2.2 (SizeConstraint.strict (1, 2)) exLState rfl⟩

/-! ### Invalidation and refresh (claims C2 and C10) -/

theorem invRemove_not_mem (rem : List Nat) :
    ∀ upd rv ps (v : Nat), v ∉ rem →
      lookupK (invRemove rem upd rv ps).2.1 v = lookupK rv v ∧
      lookupK (invRemove rem upd rv ps).2.2 v = lookupK ps v ∧
      ((v ∈ (invRemove rem upd rv ps).1) ↔ v ∈ upd) := by
  induction rem with
  | nil => intro upd rv ps v _; exact ⟨rfl, rfl, Iff.rfl⟩
  | cons w rest ih =>
    intro upd rv ps v h
    have hvw : v ≠ w := fun e => h (by simp [e])
    have hvr : v ∉ rest := fun e => h (List.mem_cons_of_mem _ e)
    obtain ⟨h1, h2, h3⟩ :=
      ih (upd.filter (fun u => u ≠ w)) (eraseK rv w) (eraseK ps w) v hvr
    have hstep : invRemove (w :: rest) upd rv ps =
        invRemove rest (upd.filter (fun u => u ≠ w)) (eraseK rv w) (eraseK ps w) := rfl
    rw [hstep, h1, h2, lookupK_eraseK, lookupK_eraseK]
    refine ⟨by simp [Ne.symm hvw], by simp [Ne.symm hvw], ?_⟩
    rw [h3]
    simp [List.mem_filter, hvw]

theorem invRemove_mem (rem : List Nat) :
    ∀ upd rv ps (v : Nat), v ∈ rem →
      lookupK (invRemove rem upd rv ps).2.1 v = none ∧
      lookupK (invRemove rem upd rv ps).2.2 v = none ∧
      v ∉ (invRemove rem upd rv ps).1 := by
  induction rem with
  | nil => intro upd rv ps v h; cases h
  | cons w rest ih =>
    intro upd rv ps v hv
    have hstep : invRemove (w :: rest) upd rv ps =
        invRemove rest (upd.filter (fun u => u ≠ w)) (eraseK rv w) (eraseK ps w) := rfl
    by_cases hvr : v ∈ rest
    · rw [hstep]
      exact ih _ _ _ v hvr
    · have hvw : v = w := by
        rcases List.mem_cons.mp hv with e | e
        · exact e
        · exact absurd e hvr
      subst hvw
      obtain ⟨h1, h2, h3⟩ :=
        invRemove_not_mem rest (upd.filter (fun u => u ≠ v)) (eraseK rv v) (eraseK ps v) v hvr
      rw [hstep, h1, h2, lookupK_eraseK, lookupK_eraseK]
      refine ⟨by simp, by simp, ?_⟩
      rw [h3]
      simp [List.mem_filter]

theorem renderLoop_log (cx : AppCtx) (wid : Nat) (tb : Int) (l : List Nat) :
    ∀ rv rv' log, renderLoop cx wid tb l rv = .ok (rv', log) →
      ∀ wb ∈ log, wb.1 ∈ l ∧ wb.2 = false := by
  induction l with
  | nil =>
    intro rv rv' log h wb hm
    cases h
    cases hm
  | cons w rest ih =>
    intro rv rv' log h wb hm
    simp only [renderLoop] at h
    rcases hr : cx.renderView wid w tb false with _ | e <;> rw [hr] at h
    · exact Res.noConfusion h
    · rw [Res.bind_eq_ok] at h
      obtain ⟨r1, h1, h2⟩ := h
      cases h2
      rcases List.mem_cons.mp hm with e | e
      · subst e
        exact ⟨List.mem_cons_self _ _, rfl⟩
      · obtain ⟨m1, m2⟩ := ih _ _ _ h1 wb e
        exact ⟨List.mem_cons_of_mem _ m1, m2⟩

theorem renderLoop_not_mem (cx : AppCtx) (wid : Nat) (tb : Int) (l : List Nat) :
    ∀ rv rv' log (v : Nat), v ∉ l → renderLoop cx wid tb l rv = .ok (rv', log) →
      lookupK rv' v = lookupK rv v := by
  induction l with
  | nil =>
    intro rv rv' log v _ h
    cases h
    rfl
  | cons w rest ih =>
    intro rv rv' log v hv h
    simp only [renderLoop] at h
    rcases hr : cx.renderView wid w tb false with _ | e <;> rw [hr] at h
    · exact Res.noConfusion h
    · rw [Res.bind_eq_ok] at h
      obtain ⟨r1, h1, h2⟩ := h
      cases h2
      have hvw : v ≠ w := fun e => hv (by simp [e])
      have hvr : v ∉ rest := fun e => hv (List.mem_cons_of_mem _ e)
      rw [ih _ _ _ v hvr h1, lookupK_insertK]
      simp [Ne.symm hvw]

theorem renderLoop_mem (cx : AppCtx) (wid : Nat) (tb : Int) (l : List Nat) :
    ∀ rv rv' log (v : Nat), v ∈ l → renderLoop cx wid tb l rv = .ok (rv', log) →
      (v, false) ∈ log ∧ lookupK rv' v = cx.renderView wid v tb false := by
  induction l with
  | nil => intro rv rv' log v hv _; cases hv
  | cons w rest ih =>
    intro rv rv' log v hv h
    simp only [renderLoop] at h
    rcases hr : cx.renderView wid w tb false with _ | e <;> rw [hr] at h
    · exact Res.noConfusion h
    · rw [Res.bind_eq_ok] at h
      obtain ⟨r1, h1, h2⟩ := h
      cases h2
      by_cases hvr : v ∈ rest
      · obtain ⟨m1, m2⟩ := ih _ _ _ v hvr h1
        exact ⟨List.mem_cons_of_mem _ m1, m2⟩
      · have hvw : v = w := by
          rcases List.mem_cons.mp hv with e | e
          · exact e
          · exact absurd e hvr
        subst hvw
        refine ⟨List.mem_cons_self _ _, ?_⟩
        rw [renderLoop_not_mem cx wid tb rest _ _ _ v hvr h1, lookupK_insertK, hr]
        simp

/-- Claim C2: `Presenter::invalidate` first processes every identity in
`removed` — evicting it from the diff's `updated` set and deleting its
registry and parent-link entries — then re-renders and overwrites the
registry entry of every identity remaining in `updated`.  Hence after a
completed `invalidate`, every identity in `removed` is absent from both
maps, an identity appearing in both `removed` and `updated` is never
re-rendered (it never appears in the render-request log), and every
identity of `updated` not in `removed` is re-rendered (with refresh flag
`false`) and its registry entry overwritten with the render result. -/
theorem claim2_invalidate_removes (p : Presenter) (inv : WindowInvalidation)
    (cx : AppCtx) (p' : Presenter) (log : List (Nat × Bool))
    (h : Presenter.invalidate p inv cx = .ok (p', log)) :
    (∀ v ∈ inv.removed,
      lookupK p'.rendered_views v = none ∧ lookupK p'.parents v = none) ∧
    (∀ v ∈ inv.removed, ∀ b, (v, b) ∉ log) ∧
    (∀ v ∈ inv.updated, v ∉ inv.removed →
      (v, false) ∈ log ∧
      lookupK p'.rendered_views v = cx.renderView p.windowId v p.titlebarHeight false) := by
  simp only [Presenter.invalidate, Res.bind_eq_ok] at h
  obtain ⟨r, hloop, heq⟩ := h
  obtain ⟨heqp, heql⟩ := Prod.mk.injEq .. ▸ (Res.ok.injEq .. ▸ heq)
  subst heqp
  subst heql
  refine ⟨?_, ?_, ?_⟩
  · intro v hv
    obtain ⟨h1, h2, h3⟩ := invRemove_mem inv.removed inv.updated p.rendered_views p.parents v hv
    refine ⟨?_, h2⟩
    rw [renderLoop_not_mem cx p.windowId p.titlebarHeight _ _ _ _ v h3 hloop]
    exact h1
  · intro v hv b hmem
    obtain ⟨_, _, h3⟩ := invRemove_mem inv.removed inv.updated p.rendered_views p.parents v hv
    obtain ⟨m1, _⟩ :=
      renderLoop_log cx p.windowId p.titlebarHeight _ _ _ _ hloop (v, b) hmem
    exact h3 m1
  · intro v hvu hvr
    obtain ⟨_, _, h3⟩ := invRemove_not_mem inv.removed inv.updated p.rendered_views p.parents v hvr
    exact renderLoop_mem cx p.windowId p.titlebarHeight _ _ _ _ v (h3.mpr hvu) hloop

/-- Concrete instance of claim C2: diff `{updated := [2,3], removed := [2]}`
on the three-view example — identity 2 disappears from both maps and is
never re-rendered; identity 3 is re-rendered and overwritten. -/
theorem claim2_invalidate_removes_witness :
    (∀ v ∈ ({ updated := [2, 3], removed := [2] } : WindowInvalidation).removed,
      lookupK (Res.getOk (Presenter.invalidate exPresenter ⟨[2, 3], [2]⟩ exCx)
          (exPresenter, [])).1.rendered_views v = none ∧
      lookupK (Res.getOk (Presenter.invalidate exPresenter ⟨[2, 3], [2]⟩ exCx)
          (exPresenter, [])).1.parents v = none) ∧
    (∀ v ∈ ({ updated := [2, 3], removed := [2] } : WindowInvalidation).removed, ∀ b,
      (v, b) ∉ (Res.getOk (Presenter.invalidate exPresenter ⟨[2, 3], [2]⟩ exCx)
          (exPresenter, [])).2) ∧
    (∀ v ∈ ({ updated := [2, 3], removed := [2] } : WindowInvalidation).updated,
      v ∉ ({ updated := [2, 3], removed := [2] } : WindowInvalidation).removed →
      (v, false) ∈ (Res.getOk (Presenter.invalidate exPresenter ⟨[2, 3], [2]⟩ exCx)
          (exPresenter, [])).2 ∧
      lookupK (Res.getOk (Presenter.invalidate exPresenter ⟨[2, 3], [2]⟩ exCx)
          (exPresenter, [])).1.rendered_views v =
        exCx.renderView exPresenter.windowId v exPresenter.titlebarHeight false) :=
  claim2_invalidate_removes exPresenter ⟨[2, 3], [2]⟩ exCx _ _ rfl

theorem refreshRemove_not_mem (rem : List Nat) :
    ∀ rv ps (v : Nat), v ∉ rem →
      lookupK (refreshRemove rem rv ps).1 v = lookupK rv v ∧
      lookupK (refreshRemove rem rv ps).2 v = lookupK ps v := by
  induction rem with
  | nil => intro rv ps v _; exact ⟨rfl, rfl⟩
  | cons w rest ih =>
    intro rv ps v h
    have hvw : v ≠ w := fun e => h (by simp [e])
    have hvr : v ∉ rest := fun e => h (List.mem_cons_of_mem _ e)
    obtain ⟨h1, h2⟩ := ih (eraseK rv w) (eraseK ps w) v hvr
    have hstep : refreshRemove (w :: rest) rv ps =
        refreshRemove rest (eraseK rv w) (eraseK ps w) := rfl
    rw [hstep, h1, h2, lookupK_eraseK, lookupK_eraseK]
    exact ⟨by simp [Ne.symm hvw], by simp [Ne.symm hvw]⟩

theorem refreshRemove_mem (rem : List Nat) :
    ∀ rv ps (v : Nat), v ∈ rem →
      lookupK (refreshRemove rem rv ps).1 v = none ∧
      lookupK (refreshRemove rem rv ps).2 v = none := by
  induction rem with
  | nil => intro rv ps v h; cases h
  | cons w rest ih =>
    intro rv ps v hv
    have hstep : refreshRemove (w :: rest) rv ps =
        refreshRemove rest (eraseK rv w) (eraseK ps w) := rfl
    by_cases hvr : v ∈ rest
    · rw [hstep]
      exact ih _ _ v hvr
    · have hvw : v = w := by
        rcases List.mem_cons.mp hv with e | e
        · exact e
        · exact absurd e hvr
      subst hvw
      obtain ⟨h1, h2⟩ := refreshRemove_not_mem rest (eraseK rv v) (eraseK ps v) v hvr
      rw [hstep, h1, h2, lookupK_eraseK, lookupK_eraseK]
      exact ⟨by simp, by simp⟩

theorem refreshLoop_contains (cx : AppCtx) (wid : Nat) (tb : Int) :
    ∀ rv rv' log, refreshLoop cx wid tb rv = .ok (rv', log) →
      ∀ k, containsK rv' k = containsK rv k := by
  intro rv
  induction rv with
  | nil =>
    intro rv' log h k
    cases h
    rfl
  | cons p rest ih =>
    intro rv' log h k
    obtain ⟨v, e⟩ := p
    simp only [refreshLoop] at h
    rcases hr : cx.renderView wid v tb true with _ | e' <;> rw [hr] at h
    · exact Res.noConfusion h
    · rw [Res.bind_eq_ok] at h
      obtain ⟨r1, h1, h2⟩ := h
      cases h2
      by_cases hvk : v = k
      · simp [containsK, lookupK, hvk]
      · have hih := ih _ _ h1 k
        simp only [containsK] at hih
        simp [containsK, lookupK, hvk, hih]

theorem refreshLoop_mem (cx : AppCtx) (wid : Nat) (tb : Int) :
    ∀ rv rv' log, refreshLoop cx wid tb rv = .ok (rv', log) →
      ∀ k e, lookupK rv k = some e →
        lookupK rv' k = cx.renderView wid k tb true := by
  intro rv
  induction rv with
  | nil =>
    intro rv' log h k e hk
    cases hk
  | cons p rest ih =>
    intro rv' log h k e hk
    obtain ⟨v, ev⟩ := p
    simp only [refreshLoop] at h
    rcases hr : cx.renderView wid v tb true with _ | e' <;> rw [hr] at h
    · exact Res.noConfusion h
    · rw [Res.bind_eq_ok] at h
      obtain ⟨r1, h1, h2⟩ := h
      cases h2
      by_cases hvk : v = k
      · subst hvk
        rw [hr]
        simp [lookupK]
      · simp only [lookupK, if_neg hvk] at hk ⊢
        exact ih _ _ h1 k e hk

theorem refreshLoop_log (cx : AppCtx) (wid : Nat) (tb : Int) :
    ∀ rv rv' log, refreshLoop cx wid tb rv = .ok (rv', log) →
      ∀ wb ∈ log, wb.2 = true := by
  intro rv
  induction rv with
  | nil =>
    intro rv' log h wb hm
    cases h
    cases hm
  | cons p rest ih =>
    intro rv' log h wb hm
    obtain ⟨v, ev⟩ := p
    simp only [refreshLoop] at h
    rcases hr : cx.renderView wid v tb true with _ | e' <;> rw [hr] at h
    · exact Res.noConfusion h
    · rw [Res.bind_eq_ok] at h
      obtain ⟨r1, h1, h2⟩ := h
      cases h2
      rcases List.mem_cons.mp hm with e | e
      · subst e
        rfl
      · exact ih _ _ h1 wb e

theorem containsK_false_eq_none {α : Type u} {m : List (Nat × α)} {k : Nat}
    (h : containsK m k = false) : lookupK m k = none := by
  rcases hl : lookupK m k with _ | x
  · rfl
  · rw [containsK, hl] at h
    cases h

/-- Claim C10: `Presenter::refresh` never adds a registry entry: after a
completed `refresh`, every identity of the optional diff's `removed` set is
absent from both the registry and the parent-link map, every other key is
present in the registry exactly when it was before (with its value
overwritten in place by a forced re-render — refresh flag `true`) and keeps
its parent-link entry, and — unlike `invalidate` — `refresh` never consults
the diff's `updated` set: its result does not depend on it. -/
theorem claim10_refresh (p : Presenter) (inv : Option WindowInvalidation) (cx : AppCtx)
    (p' : Presenter) (log : List (Nat × Bool))
    (h : Presenter.refresh p inv cx = .ok (p', log)) :
    (∀ v ∈ removedOf inv,
      lookupK p'.rendered_views v = none ∧ lookupK p'.parents v = none) ∧
    (∀ k, k ∉ removedOf inv →
      containsK p'.rendered_views k = containsK p.rendered_views k ∧
      lookupK p'.parents k = lookupK p.parents k) ∧
    (∀ k, k ∉ removedOf inv → ∀ e, lookupK p.rendered_views k = some e →
      lookupK p'.rendered_views k = cx.renderView p.windowId k p.titlebarHeight true) ∧
    (∀ wb ∈ log, wb.2 = true) ∧
    (∀ (i : WindowInvalidation) (u1 u2 : List Nat),
      Presenter.refresh p (some { updated := u1, removed := i.removed }) cx =
      Presenter.refresh p (some { updated := u2, removed := i.removed }) cx) := by
  rcases inv with _ | i
  · simp only [Presenter.refresh, Res.bind_eq_ok] at h
    obtain ⟨r, hloop, heq⟩ := h
    obtain ⟨heqp, heql⟩ := Prod.mk.injEq .. ▸ (Res.ok.injEq .. ▸ heq)
    subst heqp
    subst heql
    refine ⟨?_, ?_, ?_, ?_, ?_⟩
    · intro v hv
      simp [removedOf] at hv
    · intro k _
      exact ⟨refreshLoop_contains cx p.windowId p.titlebarHeight _ _ _ hloop k, rfl⟩
    · intro k _ e he
      exact refreshLoop_mem cx p.windowId p.titlebarHeight _ _ _ hloop k e he
    · exact refreshLoop_log cx p.windowId p.titlebarHeight _ _ _ hloop
    · intro i u1 u2
      rfl
  · simp only [Presenter.refresh, Res.bind_eq_ok] at h
    obtain ⟨r, hloop, heq⟩ := h
    obtain ⟨heqp, heql⟩ := Prod.mk.injEq .. ▸ (Res.ok.injEq .. ▸ heq)
    subst heqp
    subst heql
    refine ⟨?_, ?_, ?_, ?_, ?_⟩
    · intro v hv
      simp only [removedOf] at hv
      obtain ⟨h1, h2⟩ := refreshRemove_mem i.removed p.rendered_views p.parents v hv
      refine ⟨?_, h2⟩
      apply containsK_false_eq_none
      rw [refreshLoop_contains cx p.windowId p.titlebarHeight _ _ _ hloop v, containsK, h1]
      rfl
    · intro k hk
      simp only [removedOf] at hk
      obtain ⟨h1, h2⟩ := refreshRemove_not_mem i.removed p.rendered_views p.parents k hk
      refine ⟨?_, h2⟩
      rw [refreshLoop_contains cx p.windowId p.titlebarHeight _ _ _ hloop k, containsK, h1]
      rfl
    · intro k hk e he
      simp only [removedOf] at hk
      obtain ⟨h1, _⟩ := refreshRemove_not_mem i.removed p.rendered_views p.parents k hk
      exact refreshLoop_mem cx p.windowId p.titlebarHeight _ _ _ hloop k e (h1.trans he)
    · exact refreshLoop_log cx p.windowId p.titlebarHeight _ _ _ hloop
    · intro j u1 u2
      rfl

/-- Concrete instance of claim C10: refreshing the three-view example with
diff `{updated := [99], removed := [2]}` — identity 2 leaves both maps, the
survivors are force-re-rendered, and the `updated` set is ignored. -/
theorem claim10_refresh_witness :
    (∀ v ∈ removedOf (some ⟨[99], [2]⟩),
      lookupK (Res.getOk (Presenter.refresh exPresenter (some ⟨[99], [2]⟩) exCx)
          (exPresenter, [])).1.rendered_views v = none ∧
      lookupK (Res.getOk (Presenter.refresh exPresenter (some ⟨[99], [2]⟩) exCx)
          (exPresenter, [])).1.parents v = none) ∧
    (∀ k, k ∉ removedOf (some ⟨[99], [2]⟩) →
      containsK (Res.getOk (Presenter.refresh exPresenter (some ⟨[99], [2]⟩) exCx)
          (exPresenter, [])).1.rendered_views k = containsK exPresenter.rendered_views k ∧
      lookupK (Res.getOk (Presenter.refresh exPresenter (some ⟨[99], [2]⟩) exCx)
          (exPresenter, [])).1.parents k = lookupK exPresenter.parents k) ∧
    (∀ k, k ∉ removedOf (some ⟨[99], [2]⟩) → ∀ e, lookupK exPresenter.rendered_views k = some e →
      lookupK (Res.getOk (Presenter.refresh exPresenter (some ⟨[99], [2]⟩) exCx)
          (exPresenter, [])).1.rendered_views k =
        exCx.renderView exPresenter.windowId k exPresenter.titlebarHeight true) ∧
    (∀ wb ∈ (Res.getOk (Presenter.refresh exPresenter (some ⟨[99], [2]⟩) exCx)
        (exPresenter, [])).2, wb.2 = true) ∧
    (∀ (i : WindowInvalidation) (u1 u2 : List Nat),
      Presenter.refresh exPresenter (some { updated := u1, removed := i.removed }) exCx =
      Presenter.refresh exPresenter (some { updated := u2, removed := i.removed }) exCx) :=
  claim10_refresh exPresenter (some ⟨[99], [2]⟩) exCx _ _ rfl

/-! ### Presenter-level dispatch and scene building (claims C7, C6, C8) -/

/-- Claim C7: when a root view is resolvable, `Presenter::dispatch_event` of
a pointer-dragged event at position `pos` records as the last pointer-moved
event a synthesized pointer-moved event at the same position with the
pressed (left-mouse-down) flag set; a pointer-moved event is recorded
verbatim; every other event variant leaves the remembered event unchanged. -/
theorem claim7_last_mouse_event (fuel : Nat) (p : Presenter) (ev : Event) (cx : AppCtx)
    (rootId : Nat) (hroot : cx.rootViewId = some rootId)
    (p' : Presenter) (calls : List ExtCall)
    (h : Presenter.dispatchEvent fuel p ev cx = .ok (p', calls)) :
    p'.lastMouseMovedEvent =
      match ev with
      | .mouseMoved _ _ => some ev
      | .leftMouseDragged position => some (.mouseMoved position true)
      | .other _ => p.lastMouseMovedEvent := by
  simp only [Presenter.dispatchEvent, hroot, Res.bind_eq_ok] at h
  obtain ⟨r, _, heq⟩ := h
  obtain ⟨heqp, _⟩ := Prod.mk.injEq .. ▸ (Res.ok.injEq .. ▸ heq)
  subst heqp
  cases ev <;> rfl

/-- Concrete instance of claim C7: dispatching a pointer-dragged event at
position (3, 4) on the three-view example records a synthesized
pointer-moved event at (3, 4) with the pressed flag set. -/
theorem claim7_last_mouse_event_witness :
    (Res.getOk (Presenter.dispatchEvent 10 exPresenter (.leftMouseDragged (3, 4)) exCx)
        (exPresenter, [])).1.lastMouseMovedEvent =
      some (.mouseMoved (3, 4) true) :=
  claim7_last_mouse_event 10 exPresenter (.leftMouseDragged (3, 4)) exCx 1 rfl _ _ rfl

/-- Claim C6: during event dispatch, `EventContext::dispatch_action` appends
to the directive queue a directive whose path equals the visitation stack at
the moment of the call, touching nothing else (it is not applied: the
registry, stack and redraw set are unchanged, and the traversal emits no
external calls — the embedded traversal functions return only the event
state).  Only after the recursive pass over the tree has returned does
`Presenter::dispatch_event` emit the collected side effects: first one
`notify_view` per redraw-marked view, then one `dispatch_action_any` per
queued directive, in queue order, along the directive's recorded path. -/
theorem claim6_deferred_directives :
    (∀ (s : EState) (a : Nat),
      (EState.dispatchAction s a).dispatched_actions =
        s.dispatched_actions ++ [{ path := s.view_stack, action := a }] ∧
      (EState.dispatchAction s a).rendered_views = s.rendered_views ∧
      (EState.dispatchAction s a).view_stack = s.view_stack ∧
      (EState.dispatchAction s a).invalidated_views = s.invalidated_views) ∧
    (∀ fuel p ev cx rootId p' calls, cx.rootViewId = some rootId →
      Presenter.dispatchEvent fuel p ev cx = .ok (p', calls) →
      ∃ r, eDispatchView fuel ev rootId
          { rendered_views := p.rendered_views, dispatched_actions := [],
            view_stack := [], invalidated_views := [] } = .ok r ∧
        calls =
          r.2.invalidated_views.map (fun v => ExtCall.notifyView p.windowId v)
            ++ r.2.dispatched_actions.map
                (fun d => ExtCall.dispatchActionAny p.windowId d.path d.action)) := by
  constructor
  · intro s a
    exact ⟨rfl, rfl, rfl, rfl⟩
  · intro fuel p ev cx rootId p' calls hroot h
    simp only [Presenter.dispatchEvent, hroot, Res.bind_eq_ok] at h
    obtain ⟨r, hdisp, heq⟩ := h
    obtain ⟨_, heqc⟩ := Prod.mk.injEq .. ▸ (Res.ok.injEq .. ▸ heq)
    exact ⟨r, hdisp, heqc.symm⟩

/-- Concrete instance of claim C6: in the three-view example, view 3 queues
action 7 while the visitation stack is [1, 2, 3]; after the pass the emitted
calls are exactly one notification (view 3) followed by the directive applied
along path [1, 2, 3]. -/
theorem claim6_deferred_directives_witness :
    ((EState.dispatchAction exEState 7).dispatched_actions =
        exEState.dispatched_actions ++ [{ path := exEState.view_stack, action := 7 }] ∧
      (EState.dispatchAction exEState 7).rendered_views = exEState.rendered_views ∧
      (EState.dispatchAction exEState 7).view_stack = exEState.view_stack ∧
      (EState.dispatchAction exEState 7).invalidated_views = exEState.invalidated_views) ∧
    (∃ r, eDispatchView 10 (.other 0) 1
        { rendered_views := exPresenter.rendered_views, dispatched_actions := [],
          view_stack := [], invalidated_views := [] } = .ok r ∧
      (Res.getOk (Presenter.dispatchEvent 10 exPresenter (.other 0) exCx)
          (exPresenter, [])).2 =
        r.2.invalidated_views.map (fun v => ExtCall.notifyView exPresenter.windowId v)
          ++ r.2.dispatched_actions.map
              (fun d => ExtCall.dispatchActionAny exPresenter.windowId d.path d.action)) :=
  ⟨claim6_deferred_directives.1 exEState 7,
   claim6_deferred_directives.2 10 exPresenter (.other 0) exCx 1 _ _ rfl rfl⟩

/-- Counterexample to claim C8 as stated: `build_scene` can fail.  With a
resolvable root view identity whose registry entry is absent (empty
registry), the layout pass `unwrap`s a `None` and the whole `build_scene`
call fails fatally. -/
theorem claim8_counterexample :
    Presenter.buildScene 5 c8Presenter (0, 0) 1 exCx = .fatal := rfl

/-- Claim C8, amended: whenever no root view identity is resolvable,
`build_scene` does not fail: for every window size and scale factor it
returns an empty scene (a new scene at the given scale factor with no draw
commands) after only reporting the condition, leaving the presenter
unchanged; and `dispatch_event` with no resolvable root drops the event
without dispatching anything.  (With a resolvable root, `build_scene` can
hard-fail, e.g. when the root's registry entry is absent.) -/
theorem claim8_no_root_amended (fuel : Nat) (p : Presenter) (ws : Pos) (sf : Int)
    (ev : Event) (cx : AppCtx) (hroot : cx.rootViewId = none) :
    Presenter.buildScene fuel p ws sf cx =
      .ok ({ scaleFactor := sf, commands := [] }, p, [.logError p.windowId]) ∧
    Presenter.dispatchEvent fuel p ev cx = .ok (p, []) := by
  constructor <;> simp [Presenter.buildScene, Presenter.dispatchEvent, hroot]

/-- Concrete instance of the amended claim C8 with a rootless context. -/
theorem claim8_no_root_amended_witness :
    Presenter.buildScene 10 exPresenter (8, 6) 2 cxNoRoot =
      .ok ({ scaleFactor := 2, commands := [] }, exPresenter, [.logError exPresenter.windowId]) ∧
    Presenter.dispatchEvent 10 exPresenter (.other 0) cxNoRoot = .ok (exPresenter, []) :=
  claim8_no_root_amended 10 exPresenter (8, 6) 2 (.other 0) cxNoRoot rfl

/-! ### The parent-link map after a layout pass (claim C4) -/

theorem lastParented_none (log : List (Nat × Option Nat)) (v : Nat)
    (h : ∀ pa, (v, pa) ∉ log) : lastParented log v = none := by
  induction log with
  | nil => rfl
  | cons wq rest ih =>
    obtain ⟨w, q⟩ := wq
    have hrest : ∀ pa, (v, pa) ∉ rest := fun pa hm => h pa (List.mem_cons_of_mem _ hm)
    have hwv : w ≠ v := by
      intro e
      subst e
      exact h q (List.mem_cons_self _ _)
    simp only [lastParented, ih hrest, hwv, if_false]

set_option maxHeartbeats 2000000 in
/-- Counterexample to claim C4 as stated: the parent-link map is not fully
rebuilt by a layout pass and can keep entries for identities not visited
during that pass.  Starting from a stale entry 5 ↦ 7 (identity 5 is not in
the registry, so no pass can visit it), a completed `build_scene` still
leaves 5 ↦ 7 in the parent-link map. -/
theorem claim4_counterexample :
    lookupK (Res.getOk
      (Presenter.buildScene 10 { exPresenter with parents := [(5, 7)] } (8, 6) 2 exCx)
      ({ scaleFactor := 2, commands := [] }, exPresenter, [])).2.1.parents 5 = some 7 ∧
    lookupK ({ exPresenter with parents := [(5, 7)] } : Presenter).rendered_views 5 = none :=
  ⟨rfl, rfl⟩

/-- Claim C4, amended: a layout pass updates the parent-link map
incrementally rather than fully rebuilding it.  After a completed layout
pass, the parent-link map is the pre-pass map overlaid with the pass's
visits: an identity visited with a containing identity (the visitation-stack
top recorded at its chronologically last such visit) maps to that container,
while an identity not visited during the pass keeps its pre-pass entry (or
absence) unchanged — such entries are deleted only by explicit removal
processing (`invalidate` / `refresh`).  `build_scene`'s later phases do not
touch the map, so the same holds after `build_scene`. -/
theorem claim4_parent_links_amended :
    (∀ fuel p size cx rootId p' log, cx.rootViewId = some rootId →
      Presenter.layoutPass fuel p size cx = .ok (p', log) →
      (∀ v, lookupK p'.parents v =
        (match lastParented log v with
         | some q => some q
         | none => lookupK p.parents v)) ∧
      (∀ v, (∀ pa, (v, pa) ∉ log) → lookupK p'.parents v = lookupK p.parents v)) ∧
    (∀ fuel p ws sf cx sc p2 calls,
      Presenter.buildScene fuel p ws sf cx = .ok (sc, p2, calls) →
      ∃ lr, Presenter.layoutPass fuel p ws cx = .ok lr ∧ p2.parents = lr.1.parents) := by
  constructor
  · intro fuel p size cx rootId p' log hroot h
    simp only [Presenter.layoutPass, hroot, Res.bind_eq_ok] at h
    obtain ⟨r, hlay, heq⟩ := h
    obtain ⟨heqp, heql⟩ := Prod.mk.injEq .. ▸ (Res.ok.injEq .. ▸ heq)
    subst heqp
    subst heql
    obtain ⟨_, _, d, hlog, hpar⟩ := layoutView_pres fuel rootId (SizeConstraint.strict size)
      { rendered_views := p.rendered_views, parents := p.parents,
        view_stack := [], visitLog := [] } r hlay
    simp only [List.nil_append] at hlog
    have hchar : ∀ v, lookupK r.2.parents v =
        (match lastParented r.2.visitLog v with
         | some q => some q
         | none => lookupK p.parents v) := by
      intro v
      rw [hpar, hlog, lookupK_applyLog]
    refine ⟨hchar, ?_⟩
    intro v hv
    rw [hchar v, lastParented_none _ _ hv]
  · intro fuel p ws sf cx sc p2 calls h
    rcases hroot : cx.rootViewId with _ | rootId
    · simp only [Presenter.buildScene, hroot] at h
      rw [Res.ok.injEq, Prod.mk.injEq, Prod.mk.injEq] at h
      obtain ⟨_, hp, _⟩ := h
      refine ⟨(p, []), by simp [Presenter.layoutPass, hroot], ?_⟩
      rw [← hp]
    · simp only [Presenter.buildScene, hroot, Res.bind_eq_ok] at h
      obtain ⟨lr, hlp, ps1, hpaint, h3⟩ := h
      refine ⟨lr, hlp, ?_⟩
      rcases hlast : lr.1.lastMouseMovedEvent with _ | ev <;> rw [hlast] at h3
      · rw [Res.ok.injEq, Prod.mk.injEq, Prod.mk.injEq] at h3
        obtain ⟨_, hp, _⟩ := h3
        rw [← hp]
      · rw [Res.bind_eq_ok] at h3
        obtain ⟨dr, hde, h4⟩ := h3
        rw [Res.ok.injEq, Prod.mk.injEq, Prod.mk.injEq] at h4
        obtain ⟨_, hp, _⟩ := h4
        rw [← hp]
        rcases hroot2 : cx.rootViewId with _ | r2 <;>
          simp only [Presenter.dispatchEvent, hroot2, Res.bind_eq_ok] at hde
        · rw [Res.ok.injEq, Prod.mk.injEq] at hde
          obtain ⟨hq, _⟩ := hde
          rw [← hq]
        · obtain ⟨er, _, heq5⟩ := hde
          rw [Res.ok.injEq, Prod.mk.injEq] at heq5
          obtain ⟨hq, _⟩ := heq5
          rw [← hq]

/-- Concrete instance of the amended claim C4: on the three-view example
with a stale entry 5 ↦ 7, after the layout pass identity 2 maps to its
container 1 and identity 3 to 2 (their logged visitation-stack tops), while
the unvisited identity 5 keeps its stale entry. -/
theorem claim4_parent_links_amended_witness :
    (∀ v, lookupK (Res.getOk
        (Presenter.layoutPass 10 { exPresenter with parents := [(5, 7)] } (8, 6) exCx)
        (exPresenter, [])).1.parents v =
      (match lastParented (Res.getOk
          (Presenter.layoutPass 10 { exPresenter with parents := [(5, 7)] } (8, 6) exCx)
          (exPresenter, [])).2 v with
       | some q => some q
       | none => lookupK ({ exPresenter with parents := [(5, 7)] } : Presenter).parents v)) ∧
    (∀ v, (∀ pa, (v, pa) ∉ (Res.getOk
        (Presenter.layoutPass 10 { exPresenter with parents := [(5, 7)] } (8, 6) exCx)
        (exPresenter, [])).2) →
      lookupK (Res.getOk
        (Presenter.layoutPass 10 { exPresenter with parents := [(5, 7)] } (8, 6) exCx)
        (exPresenter, [])).1.parents v =
      lookupK ({ exPresenter with parents := [(5, 7)] } : Presenter).parents v) :=
  claim4_parent_links_amended.1 10 { exPresenter with parents := [(5, 7)] } (8, 6) exCx
    1 _ _ rfl rfl

/-! ### The dispatch path (claim C3) -/

theorem ancN_succ (ps : List (Nat × Nat)) (n : Nat) (v q : Nat)
    (h : lookupK ps v = some q) : ancN ps (n + 1) v = ancN ps n q := by
  simp only [ancN, h]

theorem ancN_succ_none (ps : List (Nat × Nat)) (n : Nat) (v : Nat)
    (h : lookupK ps v = none) : ancN ps (n + 1) v = none := by
  simp only [ancN, h]

theorem ancN_add (ps : List (Nat × Nat)) (i j : Nat) :
    ∀ v, ancN ps (i + j) v = (ancN ps i v).bind (fun x => ancN ps j x) := by
  induction i with
  | zero =>
    intro v
    simp [ancN, Nat.zero_add]
  | succ i ih =>
    intro v
    rw [Nat.succ_add]
    rcases h : lookupK ps v with _ | q
    · rw [ancN_succ_none ps (i + j) v h, ancN_succ_none ps i v h]
      rfl
    · rw [ancN_succ ps (i + j) v q h, ancN_succ ps i v q h, ih q]

theorem walkChain_none_isSome (ps : List (Nat × Nat)) :
    ∀ fuel v acc, walkChain ps fuel v acc = none →
      ∀ i, i ≤ fuel → (ancN ps i v).isSome := by
  intro fuel
  induction fuel with
  | zero =>
    intro v acc _ i hi
    have : i = 0 := Nat.le_zero.mp hi
    subst this
    rfl
  | succ fuel ih =>
    intro v acc h i hi
    simp only [walkChain] at h
    rcases hl : lookupK ps v with _ | q <;> rw [hl] at h
    · exact Option.noConfusion h
    · cases i with
      | zero => rfl
      | succ i =>
        rw [ancN_succ ps i v q hl]
        exact ih q (acc ++ [q]) h i (Nat.le_of_succ_le_succ hi)

theorem walkChain_char (ps : List (Nat × Nat)) :
    ∀ fuel v acc out, acc.getLast? = some v → walkChain ps fuel v acc = some out →
      ∃ ext, out = acc ++ ext ∧ ext.length ≤ fuel ∧
        (∀ m, m < ext.length → ancN ps (m + 1) v = ext.get? m) ∧
        (∃ r, ancN ps ext.length v = some r ∧ lookupK ps r = none ∧
          out.getLast? = some r) := by
  intro fuel
  induction fuel with
  | zero =>
    intro v acc out _ h
    simp only [walkChain] at h
    exact Option.noConfusion h
  | succ fuel ih =>
    intro v acc out hacc h
    simp only [walkChain] at h
    rcases hl : lookupK ps v with _ | q <;> rw [hl] at h
    · obtain rfl : acc = out := by injection h
      refine ⟨[], by simp, by simp, ?_, v, rfl, hl, ?_⟩
      · intro m hm
        cases hm
      · simpa using hacc
    · obtain ⟨ext', hout, hlen, hget, r, hanc, hr, hlast⟩ :=
        ih q (acc ++ [q]) out (List.getLast?_concat _) h
      refine ⟨q :: ext', ?_, ?_, ?_, r, ?_, hr, hlast⟩
      · rw [hout, List.append_assoc, List.singleton_append]
      · simpa using Nat.succ_le_succ hlen
      · intro m hm
        cases m with
        | zero =>
          rw [ancN_succ ps 0 v q hl]
          rfl
        | succ m =>
          rw [ancN_succ ps (m + 1) v q hl]
          exact hget m (by simpa using hm)
      · rw [show (q :: ext').length = ext'.length + 1 from rfl,
          ancN_succ ps ext'.length v q hl]
        exact hanc

theorem acyclic_no_repeat (ps : List (Nat × Nat)) (hacy : AcyclicPL ps) (v0 : Nat)
    (i j : Nat) (hij : i < j) (hj : j ≤ ps.length + 1) (x : Nat)
    (hi : ancN ps i v0 = some x) (hjx : ancN ps j v0 = some x)
    (hnext : (ancN ps (i + 1) v0).isSome) : False := by
  have hone : ancN ps (i + 1) v0 = ancN ps 1 x := by
    rw [ancN_add ps i 1 v0, hi]
    rfl
  rw [hone] at hnext
  have hlx : ∃ q, lookupK ps x = some q := by
    rcases hl : lookupK ps x with _ | q
    · rw [ancN_succ_none ps 0 x hl] at hnext
      cases hnext
    · exact ⟨q, rfl⟩
  obtain ⟨q, hq⟩ := hlx
  have hxk : x ∈ keysList ps := lookupK_mem_keysList hq
  have hd : ancN ps (j - i) x = some x := by
    have hsplit : j = i + (j - i) := by omega
    rw [hsplit, ancN_add ps i (j - i) v0, hi] at hjx
    simpa using hjx
  apply hacy x hxk (j - i - 1) (by omega)
  rw [show j - i - 1 + 1 = j - i from by omega]
  exact hd

theorem acyclic_walk_some (ps : List (Nat × Nat)) (hacy : AcyclicPL ps) (v0 : Nat) :
    walkChain ps (ps.length + 1) v0 [v0] ≠ none := by
  intro hnone
  have hsome := walkChain_none_isSome ps (ps.length + 1) v0 [v0] hnone
  have key : ∀ a b, a < b → b ≤ ps.length + 1 →
      (ancN ps a v0).getD 0 = (ancN ps b v0).getD 0 → False := by
    intro a b hab hb hfe
    obtain ⟨x, hx⟩ := Option.isSome_iff_exists.mp (hsome a (by omega))
    obtain ⟨y, hy⟩ := Option.isSome_iff_exists.mp (hsome b hb)
    have hxy : x = y := by
      rw [hx, hy] at hfe
      simpa using hfe
    subst hxy
    exact acyclic_no_repeat ps hacy v0 a b hab hb x hx hy (hsome (a + 1) (by omega))
  have hmaps : ∀ i ∈ Finset.range (ps.length + 1),
      (ancN ps i v0).getD 0 ∈ (keysList ps).toFinset := by
    intro i hi
    rw [Finset.mem_range] at hi
    obtain ⟨x, hx⟩ := Option.isSome_iff_exists.mp (hsome i (by omega))
    obtain ⟨y, hy⟩ := Option.isSome_iff_exists.mp (hsome (i + 1) (by omega))
    rw [ancN_add ps i 1 v0, hx] at hy
    simp only [Option.some_bind] at hy
    have hlk : lookupK ps x = some y := by
      rcases hl : lookupK ps x with _ | q
      · rw [ancN_succ_none ps 0 x hl] at hy
        cases hy
      · rw [ancN_succ ps 0 x q hl] at hy
        simp only [ancN, Option.some.injEq] at hy
        subst hy
        rfl
    rw [hx]
    simp only [Option.getD_some]
    exact List.mem_toFinset.mpr (lookupK_mem_keysList hlk)
  have hcard : (keysList ps).toFinset.card < (Finset.range (ps.length + 1)).card := by
    rw [Finset.card_range]
    have h1 : (keysList ps).toFinset.card ≤ (keysList ps).length := (keysList ps).toFinset_card_le
    have h2 : (keysList ps).length = ps.length := by simp [keysList]
    omega
  obtain ⟨i, hi, j, hj, hne, hfeq⟩ :=
    Finset.exists_ne_map_eq_of_card_lt_of_maps_to hcard hmaps
  rw [Finset.mem_range] at hi hj
  rcases Nat.lt_trichotomy i j with hij | hij | hij
  · exact key i j hij (by omega) hfeq
  · exact hne hij
  · exact key j i hij (by omega) hfeq.symm

theorem walk_nodup (ps : List (Nat × Nat)) (hacy : AcyclicPL ps) (v0 : Nat) (l : List Nat)
    (hw : walkChain ps (ps.length + 1) v0 [v0] = some l) : l.Nodup := by
  obtain ⟨ext, hout, hlen, hget, r, hanc, hr, hlast⟩ :=
    walkChain_char ps (ps.length + 1) v0 [v0] l rfl hw
  have hlength : l.length = ext.length + 1 := by
    rw [hout]
    simp
  have hfull : ∀ m, m < l.length → ancN ps m v0 = l.get? m := by
    intro m hm
    cases m with
    | zero =>
      rw [hout]
      rfl
    | succ m =>
      have hm' : m < ext.length := by omega
      rw [hout, show ([v0] ++ ext).get? (m + 1) = ext.get? m from rfl]
      exact hget m hm'
  rw [List.nodup_iff_injective_get]
  intro a b hab
  by_contra hne
  have key : ∀ (c d : Fin l.length), (c : Nat) < (d : Nat) → l.get c = l.get d → False := by
    intro c d hcd heq
    have hc := hfull c c.isLt
    have hd := hfull d d.isLt
    rw [List.get?_eq_get c.isLt] at hc
    rw [List.get?_eq_get d.isLt] at hd
    simp only [Fin.eta] at hc hd
    rw [← heq] at hd
    have hnext : (ancN ps ((c : Nat) + 1) v0).isSome := by
      have hc1 : (c : Nat) + 1 < l.length := by
        have := d.isLt
        omega
      rw [hfull _ hc1, List.get?_eq_get hc1]
      rfl
    have hdbound : (d : Nat) ≤ ps.length + 1 := by
      have := d.isLt
      omega
    exact acyclic_no_repeat ps hacy v0 c d hcd hdbound (l.get c) hc hd hnext
  rcases Nat.lt_trichotomy (a : Nat) (b : Nat) with h | h | h
  · exact key a b h hab
  · exact hne (Fin.ext h)
  · exact key b a h hab.symm

theorem walkChain_depth (ps : List (Nat × Nat)) :
    ∀ fuel v acc out, acc.getLast? = some v → walkChain ps fuel v acc = some out →
      ancDepth ps fuel v = some (out.length - acc.length) := by
  intro fuel
  induction fuel with
  | zero =>
    intro v acc out _ h
    simp only [walkChain] at h
    exact Option.noConfusion h
  | succ fuel ih =>
    intro v acc out hacc h
    simp only [walkChain] at h
    rcases hl : lookupK ps v with _ | q <;> rw [hl] at h
    · obtain rfl : acc = out := by injection h
      simp only [ancDepth, hl, Nat.sub_self]
    · have hdep := ih q (acc ++ [q]) out (List.getLast?_concat _) h
      have hge : acc.length + 1 ≤ out.length := by
        obtain ⟨ext, hout, -, -, -⟩ :=
          walkChain_char ps fuel q (acc ++ [q]) out (List.getLast?_concat _) h
        rw [hout]
        simp only [List.length_append, List.length_singleton]
        omega
      simp only [ancDepth]
      rw [hl]
      show Option.map (fun x => x + 1) (ancDepth ps fuel q) = some (out.length - acc.length)
      rw [hdep]
      simp only [Option.map_some']
      congr 1
      simp only [List.length_append, List.length_singleton] at *
      omega

/-- Claim C3: whenever some view is focused and the parent-link map is
acyclic, `Presenter::dispatch_path` terminates (fuel `parents.length + 1`
suffices for the source's `while let` walk) and returns the chain from the
focused view to the root, reversed: its first element is the window's root
(the identity with no parent entry on the chain), its last element is the
focused view, no identity repeats, and its length is the focused view's tree
depth plus one. -/
theorem claim3_dispatch_path (p : Presenter) (cx : AppCtx) (v0 : Nat)
    (hf : cx.focusedViewId = some v0) (hacy : AcyclicPL p.parents) :
    ∃ out, Presenter.dispatchPath (p.parents.length + 1) p cx = .ok out ∧
      out.getLast? = some v0 ∧
      (∃ r, out.head? = some r ∧ lookupK p.parents r = none) ∧
      out.Nodup ∧
      ancDepth p.parents (p.parents.length + 1) v0 = some (out.length - 1) := by
  rcases hw : walkChain p.parents (p.parents.length + 1) v0 [v0] with _ | l
  · exact absurd hw (acyclic_walk_some p.parents hacy v0)
  · obtain ⟨ext, hout, hlen, hget, r, hanc, hr, hlast⟩ :=
      walkChain_char p.parents (p.parents.length + 1) v0 [v0] l rfl hw
    refine ⟨l.reverse, ?_, ?_, ⟨r, ?_, hr⟩, ?_, ?_⟩
    · simp only [Presenter.dispatchPath, hf, hw]
    · rw [List.getLast?_reverse, hout]
      rfl
    · rw [List.head?_reverse]
      exact hlast
    · exact List.nodup_reverse.mpr (walk_nodup p.parents hacy v0 l hw)
    · have hd := walkChain_depth p.parents (p.parents.length + 1) v0 [v0] l rfl hw
      rw [List.length_reverse]
      simpa using hd

/-- Concrete instance of claim C3: with parents 2 ↦ 1 and 3 ↦ 2 and view 3
focused, `dispatch_path` returns a root-first, repetition-free chain ending
at the focused view, of length depth + 1 (concretely [1, 2, 3]). -/
theorem claim3_dispatch_path_witness :
    ∃ out, Presenter.dispatchPath (exPresenterChain.parents.length + 1)
        exPresenterChain exCx = .ok out ∧
      out.getLast? = some 3 ∧
      (∃ r, out.head? = some r ∧ lookupK exPresenterChain.parents r = none) ∧
      out.Nodup ∧
      ancDepth exPresenterChain.parents (exPresenterChain.parents.length + 1) 3 =
        some (out.length - 1) :=
  claim3_dispatch_path exPresenterChain exCx 3 rfl (by decide)
